import Mathlib

/-!
Verification of the gradient/Jacobian extraction engine and the
stochastic-reconfiguration step driver of the `netket` repository
(`netket/machine/torch.py`, `netket/drivers/steady_state.py`).

The embedding works over exact rationals.  PyTorch's reverse-mode
autodifferentiation engine is external third-party code; it is modelled as an
exact per-sample gradient oracle `dlog` carried by the machine: `dlog r c` is
the list, over differentiable parameter tensors (in module order), of the
flattened gradient of output channel `c` of the model at input row `r`.  A
backward pass with a weight matrix accumulates the correspondingly weighted
sum of these gradients into the per-parameter `.grad` buffers, which is
exactly torch's documented contract.  Likewise backpack's `BatchGrad`
extension delivers, for each parameter, the stack of per-sample gradients
(the transpose of the per-sample per-parameter gradient table).
-/

set_option autoImplicit false

namespace Netket

/-- Complex numbers with rational components, standing in for numpy
`complex128` scalars (arithmetic here is exact where floating point is
approximate). -/
structure CQ where
  re : ℚ
  im : ℚ
deriving DecidableEq, Repr

def CQ.add (a b : CQ) : CQ := ⟨a.re + b.re, a.im + b.im⟩

def CQ.mul (a b : CQ) : CQ := ⟨a.re * b.re - a.im * b.im, a.re * b.im + a.im * b.re⟩

def CQ.conj (a : CQ) : CQ := ⟨a.re, -a.im⟩

def CQ.zero : CQ := ⟨0, 0⟩

/-- Real scalar viewed as a complex one (`astype(complex128)` on a real
array). -/
def CQ.ofRe (r : ℚ) : CQ := ⟨r, 0⟩

/-- All-zero real vector of length `n`. -/
def zeros (n : ℕ) : List ℚ := List.replicate n 0

/-- Pointwise addition of real vectors. -/
def vadd (a b : List ℚ) : List ℚ := List.zipWith (fun p q => p + q) a b

/-- Scaling of a real vector. -/
def vscale (c : ℚ) (v : List ℚ) : List ℚ := v.map (fun q => c * q)

/-- Pointwise addition of complex vectors. -/
def caddV (a b : List CQ) : List CQ := List.zipWith CQ.add a b

/-- Scaling of a complex vector. -/
def csmulV (w : CQ) (v : List CQ) : List CQ := v.map (fun z => CQ.mul w z)

/-- Entrywise conjugation of a complex vector. -/
def conjV (v : List CQ) : List CQ := v.map CQ.conj

/-- Assembles a complex vector from its real and imaginary component
vectors (writing into `out.real` and `out.imag`). -/
def mkC (a b : List ℚ) : List CQ := List.zipWith CQ.mk a b

/-- All-zero complex vector of length `n`. -/
def czeros (n : ℕ) : List CQ := List.replicate n CQ.zero

/-- The `Torch` machine of `netket/machine/torch.py`.  `params` lists the
module's parameter tensors (flattened values, paired with their
`requires_grad` flag) in `module.parameters()` order; `grads` are the
gradient-accumulation buffers of the differentiable parameters (`None` when
never written); `dlog` is the autograd gradient oracle described in the file
comment; `_use_backpack` is the backend flag computed in `__init__`. -/
structure Torch where
  params : List (List ℚ × Bool)
  grads : List (Option (List ℚ))
  dlog : List ℚ → Bool → List (List ℚ)
  _use_backpack : Bool

namespace Torch

/-- Differentiable parameter tensors of a raw parameter list, in order
(`_get_differentiable_parameters`). -/
def dparamsL (ps : List (List ℚ × Bool)) : List (List ℚ) :=
  (ps.filter (fun p => p.2)).map (fun p => p.1)

/-- Differentiable parameter tensors of the machine. -/
def dparams (m : Torch) : List (List ℚ) := dparamsL m.params

/-- Sizes (`numel`) of the differentiable parameter tensors. -/
def dshape (m : Torch) : List ℕ := m.dparams.map List.length

/-- Total number of variational parameters (`_get_number_parameters`). -/
def n_par (m : Torch) : ℕ := m.dshape.sum

/-- The `parameters` property getter: concatenation of the flattened
differentiable tensors, cast to complex with zero imaginary part. -/
def parameters (m : Torch) : List CQ := m.dparams.flatten.map CQ.ofRe

/-- The copy loop of the `parameters` setter: walks the module's parameter
tensors in order and overwrites each differentiable one with the next
`numel`-sized slice of the supplied real vector. -/
def assignReals : List (List ℚ × Bool) → List ℚ → List (List ℚ × Bool)
  | [], _ => []
  | (t, true) :: rest, v => (v.take t.length, true) :: assignReals rest (v.drop t.length)
  | (t, false) :: rest, v => (t, false) :: assignReals rest v

/-- The `parameters` property setter.  Returns the warning flag (a
`PrecisionLossWarning` is emitted when any imaginary part is nonzero; the
warning check precedes the shape check, as in the source) and either `none`
(the `ValueError` raised when the length differs from `n_par`, before any
copy happens) or the updated parameter list. -/
def parameters_set (m : Torch) (p : List CQ) : Bool × Option (List (List ℚ × Bool)) :=
  let warned : Bool := !(p.all (fun z => decide (z.im = 0)))
  let torch_pars : List ℚ := p.map CQ.re
  if torch_pars.length ≠ m.n_par then (warned, none)
  else (warned, some (assignReals m.params torch_pars))

/-- The `parameters` setter as a machine transformer: on the `ValueError`
branch the machine is left untouched. -/
def parameters_setM (m : Torch) (p : List CQ) : Bool × Torch :=
  match m.parameters_set p with
  | (w, none) => (w, m)
  | (w, some q) => (w, { m with params := q })

end Torch

/-- A direct child of the wrapped module, as inspected by `Torch.__init__`:
whether it is a `torch.nn.Linear` or `torch.nn.Conv2d` instance, and the
total element count of all its parameters. -/
structure Child where
  isLinearOrConv2d : Bool
  numelTotal : ℕ
deriving DecidableEq, Repr

/-- The backend-selection loop of `Torch.__init__`: backpack is used iff the
optional dependency imported and no parameter-owning child is of a type
other than `Linear`/`Conv2d`. -/
def computeUseBackpack (backpackImported : Bool) (children : List Child) : Bool :=
  backpackImported && children.all (fun c => c.isLinearOrConv2d || c.numelTotal == 0)

/-- The real/complex projection applied to one pytree leaf by
`SteadyState._forward_and_backward`: a leaf whose parameter counterpart is a
complex array passes unchanged, otherwise `.real` is taken. -/
def projectLeaf (x : List CQ) (targetComplex : Bool) : List CQ :=
  if targetComplex then x else x.map (fun z => CQ.ofRe z.re)

/-- The `jax.tree_multimap` of the projection over the leaves of the update
direction paired with the parameter leaves. -/
def projectTree (dp : List (List CQ)) (targets : List Bool) : List (List CQ) :=
  List.zipWith projectLeaf dp targets

/-- The `SteadyState` driver state relevant to one optimization step:
whether an SR solver is configured (`self.sr is not None`), the
`sr_restart` flag, and the retained previous update direction `self._dp`
(initially `None`). -/
structure SteadyState where
  sr : Bool
  sr_restart : Bool
  _dp : Option (List (List CQ))

/-- External collaborators of one step: the SR linear solver
(`self._S.solve`), the bare loss gradient returned by `expect_and_grad`,
and the complex/real dtype tags of the parameter leaves. -/
structure StepEnv where
  solve : List (List CQ) → Option (List (List CQ)) → List (List CQ)
  loss_grad : List (List CQ)
  targetsComplex : List Bool

namespace SteadyState

/-- Driver construction: `self._dp = None`. -/
def mk0 (sr sr_restart : Bool) : SteadyState := ⟨sr, sr_restart, none⟩

/-- The warm-start seed passed to the solver:
`x0 = self._dp if self.sr_restart is False else None`. -/
def seed (d : SteadyState) : Option (List (List CQ)) :=
  if d.sr_restart = false then d._dp else none

/-- The update direction before the real/complex projection: the solver
result when SR is configured, the bare gradient otherwise. -/
def preProject (d : SteadyState) (e : StepEnv) : List (List CQ) :=
  if d.sr then e.solve e.loss_grad d.seed else e.loss_grad

/-- One `_forward_and_backward` call: compute the direction, project it,
retain it as `self._dp`, and return it. -/
def _forward_and_backward (d : SteadyState) (e : StepEnv) :
    SteadyState × List (List CQ) :=
  let dp := projectTree (d.preProject e) e.targetsComplex
  ({ d with _dp := some dp }, dp)

/-- The driver state after `n` optimization steps of a freshly constructed
driver, the step inputs being supplied by `envs`. -/
def run (envs : ℕ → StepEnv) (sr sr_restart : Bool) : ℕ → SteadyState
  | 0 => mk0 sr sr_restart
  | n + 1 => ((run envs sr sr_restart n)._forward_and_backward (envs n)).1

end SteadyState

namespace Torch

/-- The effect of `zero_grad` (both `module.zero_grad()` and the local
`zero_grad` of `vector_jacobian_prod`): buffers that exist are zeroed in
place, never-written buffers stay `None`. -/
def zeroGrads (g : List (Option (List ℚ))) : List (Option (List ℚ)) :=
  g.map (Option.map (fun v => zeros v.length))

/-- Accumulation of one backward pass into the gradient buffers: torch adds
the new contribution to the existing buffer, materializing a zero buffer
first when the buffer is `None`. -/
def accumulate (g : List (Option (List ℚ))) (cs : List (List ℚ)) :
    List (Option (List ℚ)) :=
  List.zipWith (fun o c => some (vadd (o.getD (zeros c.length)) c)) g cs

/-- The `write_to` read-out of `vector_jacobian_prod`: flatten each
differentiable parameter's `.grad` and concatenate (after a backward pass
every buffer read here is present, so the `[]` default is never hit). -/
def readGrads (g : List (Option (List ℚ))) : List ℚ :=
  (g.map (fun o => o.getD [])).flatten

/-- Gradient contribution of a single sample row `r` to a backward pass
whose weight on the two output channels of that row is `w`: per parameter,
`w.1` times the channel-0 gradient plus `w.2` times the channel-1
gradient. -/
def sampleGrad (m : Torch) (r : List ℚ) (w : ℚ × ℚ) : List (List ℚ) :=
  List.zipWith (fun gF gT => vadd (vscale w.1 gF) (vscale w.2 gT))
    (m.dlog r false) (m.dlog r true)

/-- Total gradient of one backward pass from the batched two-channel output
with per-sample channel weights `ws` (the `vecj` matrix): the sum over
samples of `sampleGrad`, with the all-zero contribution of the given
per-parameter shape for an empty batch. -/
def batchGrad (m : Torch) (shape : List ℕ) :
    List (List ℚ) → List (ℚ × ℚ) → List (List ℚ)
  | [], _ => shape.map zeros
  | _ :: _, [] => shape.map zeros
  | r :: rs, w :: ws => List.zipWith vadd (m.sampleGrad r w) (m.batchGrad shape rs ws)

/-- Flattened concatenated gradient of one sample and one channel: what one
row of `der_log` receives in its real (channel 0) or imaginary (channel 1)
slots. -/
def jrow (m : Torch) (r : List ℚ) (c : Bool) : List ℚ := (m.dlog r c).flatten

/-- The per-sample fallback branch of `der_log` (one `torch.autograd.grad`
call per sample per channel; row `i` is the concatenation of the flattened
per-parameter gradients, channel 0 into `.real` and channel 1 into
`.imag`). -/
def der_log_persample (m : Torch) (x : List (List ℚ)) : List (List CQ) :=
  x.map (fun r => mkC (m.jrow r false) (m.jrow r true))

/-- Transposition of a rectangular table with `n` columns: turns the
per-sample list of per-parameter gradients into the per-parameter list of
per-sample gradients, which is the shape in which backpack's `BatchGrad`
delivers `p.grad_batch`. -/
def transposeRect : ℕ → List (List (List ℚ)) → List (List (List ℚ))
  | 0, _ => []
  | n + 1, tbl => tbl.map (fun r => r.headD []) :: transposeRect n (tbl.map List.tail)

/-- The `write_to` loop of the backpack branch of `der_log`: each
`p.grad_batch` matrix is written as the next block of columns, i.e. the
per-parameter matrices are concatenated horizontally; an empty parameter
list leaves the `nrows` preallocated rows empty. -/
def hcatAll (nrows : ℕ) : List (List (List ℚ)) → List (List ℚ)
  | [] => List.replicate nrows []
  | gb :: rest => List.zipWith (fun a b => a ++ b) gb (hcatAll nrows rest)

/-- The `p.grad_batch` tensors for output channel `c` after the backpack
backward pass from the batch-summed channel output: per differentiable
parameter, the stack of per-sample gradients. -/
def grad_batch (m : Torch) (x : List (List ℚ)) (c : Bool) : List (List (List ℚ)) :=
  transposeRect m.dparams.length (x.map (fun r => m.dlog r c))

/-- One channel of the backpack branch of `der_log`: the horizontal
concatenation of the `grad_batch` blocks. -/
def der_log_backpack_chan (m : Torch) (x : List (List ℚ)) (c : Bool) : List (List ℚ) :=
  hcatAll x.length (m.grad_batch x c)

/-- The fused backpack branch of `der_log`: channel 0 written to the real
parts, channel 1 to the imaginary parts. -/
def der_log_backpack (m : Torch) (x : List (List ℚ)) : List (List CQ) :=
  List.zipWith mkC (m.der_log_backpack_chan x false) (m.der_log_backpack_chan x true)

/-- `der_log` as a machine transformer.  The backpack branch issues two
accumulating backward passes (weights `(1,0)` on every sample for the
channel-0 sum, then `(0,1)` for the channel-1 sum) and ends with
`module.zero_grad()`; the per-sample branch uses `torch.autograd.grad`,
which never touches the `.grad` buffers, and also ends with
`module.zero_grad()`. -/
def der_logS (m : Torch) (x : List (List ℚ)) : List (List CQ) × Torch :=
  if m._use_backpack then
    let g1 := Torch.accumulate m.grads (m.batchGrad m.dshape x (x.map (fun _ => ((1 : ℚ), (0 : ℚ)))))
    let g2 := Torch.accumulate g1 (m.batchGrad m.dshape x (x.map (fun _ => ((0 : ℚ), (1 : ℚ)))))
    (m.der_log_backpack x, { m with grads := zeroGrads g2 })
  else
    (m.der_log_persample x, { m with grads := zeroGrads m.grads })

/-- The value returned by `der_log`. -/
def der_log (m : Torch) (x : List (List ℚ)) : List (List CQ) := (m.der_logS x).1

/-- `vector_jacobian_prod` as a machine transformer, following the source
line by line: `zero_grad()`, backward with weights
`(vec.real, vec.imag)`, read into `out.real`, `zero_grad()`, backward with
weights `(vec.imag, -vec.real)`, read into `out.imag`; the buffers are not
zeroed after the second pass. -/
def vector_jacobian_prodS (m : Torch) (x : List (List ℚ)) (vec : List CQ) :
    List CQ × Torch :=
  let g0 := zeroGrads m.grads
  let g1 := Torch.accumulate g0 (m.batchGrad m.dshape x (vec.map (fun z => (z.re, z.im))))
  let outRe := readGrads g1
  let g2 := zeroGrads g1
  let g3 := Torch.accumulate g2 (m.batchGrad m.dshape x (vec.map (fun z => (z.im, -z.re))))
  let outIm := readGrads g3
  (mkC outRe outIm, { m with grads := g3 })

/-- The value returned by `vector_jacobian_prod`. -/
def vector_jacobian_prod (m : Torch) (x : List (List ℚ)) (vec : List CQ) : List CQ :=
  (m.vector_jacobian_prodS x vec).1

/-- Shape discipline of the gradient oracle on a given batch: on every row
of the batch, both channels produce one gradient per differentiable
parameter tensor, of that tensor's size. -/
abbrev WFon (m : Torch) (x : List (List ℚ)) : Prop :=
  ∀ r ∈ x, (m.dlog r false).map List.length = m.dshape
    ∧ (m.dlog r true).map List.length = m.dshape

/-- A gradient buffer is either absent or of its parameter's size. -/
abbrev bufOK (o : Option (List ℚ)) (n : ℕ) : Prop :=
  (o.getD (zeros n)).length = n

/-- Shape discipline of the gradient-accumulation buffers: one buffer per
differentiable parameter, each of its parameter's size when present. -/
abbrev GradWF (m : Torch) : Prop :=
  m.grads.length = m.dparams.length ∧ ∀ pr ∈ m.grads.zip m.dshape, bufOK pr.1 pr.2

/-- Gradient-accumulation state containing only zeroes (buffers may be
absent or zero-filled). -/
abbrev Zeroed (g : List (Option (List ℚ))) : Prop :=
  ∀ o ∈ g, ∀ v ∈ o, ∀ q ∈ v, q = 0

end Torch

/-- The matrix product `w^T · J` (sum over samples of `w i` times row `i`
of `J`), the quantity the specification's VJP-correctness sentence names;
the empty sum is the zero vector of length `n`. -/
def wTJ (n : ℕ) : List CQ → List (List CQ) → List CQ
  | w :: ws, row :: rows => caddV (csmulV w row) (wTJ n ws rows)
  | _, _ => czeros n

/-- The product `w^T · conj(J)` (sum over samples of `w i` times the
conjugated row `i` of `J`, i.e. the adjoint application `J^† w`). -/
def wConjJ (n : ℕ) : List CQ → List (List CQ) → List CQ
  | w :: ws, row :: rows => caddV (csmulV w (conjV row)) (wConjJ n ws rows)
  | _, _ => czeros n

/-- Concrete machine: a module computing `r ↦ (0, θ)` from one differentiable
bias-like scalar parameter `θ` (a shape the per-sample backend handles), so
the channel-0 gradient is `0` and the channel-1 gradient is `1` at every
input row. -/
def cexM : Torch :=
  { params := [([0], true)]
    grads := [none]
    dlog := fun _ c => if c then [[1]] else [[0]]
    _use_backpack := false }

/-- Concrete machine with two differentiable tensors (sizes 2 and 1) and one
frozen tensor, whose gradient oracle depends on the input row. -/
def witM : Torch :=
  { params := [([1, 2], true), ([5], false), ([3], true)]
    grads := [some [0, 0], none]
    dlog := fun r c =>
      if c then [[r.headD 0, 1], [2]] else [[0, 1], [r.headD 0]]
    _use_backpack := true }

/-- Concrete solver stub returning the gradient itself. -/
def witSolve : List (List CQ) → Option (List (List CQ)) → List (List CQ) :=
  fun g _ => g

/-- Concrete per-step inputs for driver runs. -/
def witEnvs : ℕ → StepEnv := fun _ => ⟨witSolve, [[⟨1, 2⟩]], [false]⟩

/-- Concrete parameter vector of `witM.n_par` entries, one with a nonzero
imaginary part. -/
def witP : List CQ := [⟨1, 1⟩, ⟨2, 0⟩, ⟨3, 0⟩]

namespace Torch

theorem dparamsL_cons_true (t : List ℚ) (rest : List (List ℚ × Bool)) :
    dparamsL ((t, true) :: rest) = t :: dparamsL rest := by
  simp [dparamsL]

theorem dparamsL_cons_false (t : List ℚ) (rest : List (List ℚ × Bool)) :
    dparamsL ((t, false) :: rest) = dparamsL rest := by
  simp [dparamsL]

/-- Writing back the concatenation of the differentiable tensors restores
every tensor exactly. -/
theorem assignReals_self (ps : List (List ℚ × Bool)) :
    assignReals ps (dparamsL ps).flatten = ps := by
  induction ps with
  | nil => rfl
  | cons p rest ih =>
    obtain ⟨t, b⟩ := p
    cases b with
    | true =>
      rw [dparamsL_cons_true]
      show (((t :: dparamsL rest).flatten.take t.length), true) ::
          assignReals rest ((t :: dparamsL rest).flatten.drop t.length) = _
      rw [List.flatten_cons, List.take_left, List.drop_left, ih]
    | false =>
      rw [dparamsL_cons_false]
      show (t, false) :: assignReals rest (dparamsL rest).flatten = _
      rw [ih]

/-- A vector of the right total length is written back exactly: the
concatenation of the updated differentiable tensors is the vector. -/
theorem flatten_assignReals (ps : List (List ℚ × Bool)) (v : List ℚ)
    (h : v.length = ((dparamsL ps).map List.length).sum) :
    (dparamsL (assignReals ps v)).flatten = v := by
  induction ps generalizing v with
  | nil =>
    simp [dparamsL] at h
    simp [assignReals, dparamsL, h]
  | cons p rest ih =>
    obtain ⟨t, b⟩ := p
    cases b with
    | true =>
      rw [dparamsL_cons_true] at h
      show ((dparamsL ((v.take t.length, true) :: assignReals rest (v.drop t.length)))).flatten = v
      rw [dparamsL_cons_true, List.flatten_cons]
      have hlen : t.length ≤ v.length := by
        simp at h; omega
      have hdrop : (v.drop t.length).length = ((dparamsL rest).map List.length).sum := by
        simp at h ⊢; omega
      rw [ih _ hdrop]
      exact List.take_append_drop _ v
    | false =>
      rw [dparamsL_cons_false] at h
      show (dparamsL ((t, false) :: assignReals rest v)).flatten = v
      rw [dparamsL_cons_false]
      exact ih v h

/-- The setter never touches frozen tensors. -/
theorem assignReals_nondiff (ps : List (List ℚ × Bool)) (v : List ℚ) :
    (assignReals ps v).filter (fun q => !q.2) = ps.filter (fun q => !q.2) := by
  induction ps generalizing v with
  | nil => rfl
  | cons p rest ih =>
    obtain ⟨t, b⟩ := p
    cases b with
    | true =>
      show ((v.take t.length, true) :: assignReals rest (v.drop t.length)).filter _ = _
      simp [List.filter_cons, ih]
    | false =>
      show ((t, false) :: assignReals rest v).filter _ = _
      simp [List.filter_cons, ih]

/-- The getter produces exactly `n_par` entries. -/
theorem parameters_length (m : Torch) : m.parameters.length = m.n_par := by
  simp only [parameters, n_par, dshape, List.length_map, List.length_flatten]

/-- The real parts of the getter's output are the flattened differentiable
tensors. -/
theorem parameters_re (m : Torch) : m.parameters.map CQ.re = m.dparams.flatten := by
  unfold parameters
  rw [List.map_map]
  have h : (CQ.re ∘ CQ.ofRe) = id := rfl
  rw [h, List.map_id]

end Torch

/-- A driver run never changes the `sr_restart` flag. -/
theorem run_sr_restart (envs : ℕ → StepEnv) (sr r : Bool) (n : ℕ) :
    (SteadyState.run envs sr r n).sr_restart = r := by
  induction n with
  | zero => rfl
  | succ k ih =>
    simpa [SteadyState.run, SteadyState._forward_and_backward] using ih

/-- Claim C2: with an SR solver configured, warm-start reuse (`sr_restart`
false) seeds every solve after the first with the previous step's update
direction as `x0`; with `sr_restart` true every solve gets `x0 = None`; and
the first solve of a fresh driver always gets `x0 = None` because `_dp`
starts as `None`. -/
theorem claim_C2_warm_start (envs : ℕ → StepEnv) (sr r : Bool) :
    (SteadyState.mk0 sr r).seed = none
    ∧ (r = true → ∀ n : ℕ, (SteadyState.run envs sr r n).seed = none)
    ∧ (r = false → ∀ n : ℕ, (SteadyState.run envs sr r (n + 1)).seed =
        some (((SteadyState.run envs sr r n)._forward_and_backward (envs n)).2)) := by
  refine ⟨?_, ?_, ?_⟩
  · cases r <;> simp [SteadyState.seed, SteadyState.mk0]
  · intro h n
    simp [SteadyState.seed, run_sr_restart, h]
  · intro h n
    have hs : (SteadyState.run envs sr r (n + 1)).seed =
        (SteadyState.run envs sr r (n + 1))._dp := by
      simp [SteadyState.seed, run_sr_restart, h]
    rw [hs]
    rfl

/-- Witness for C2 at a concrete driver run: after the first step with
reuse enabled, the second solve is seeded with the first step's update
direction. -/
theorem claim_C2_witness :
    (SteadyState.run witEnvs true false 1).seed =
      some (((SteadyState.run witEnvs true false 0)._forward_and_backward (witEnvs 0)).2) :=
  (claim_C2_warm_start witEnvs true false).2.2 rfl 0

/-- Claim C4: `der_log` uses the fused backpack backend iff the
backpack dependency imported and every child module owning parameters is a
`Linear`/`Conv2d` instance; the `_use_backpack` flag decides which branch
`der_log` takes. -/
theorem claim_C4_backend_selection (b : Bool) (cs : List Child) (m : Torch)
    (x : List (List ℚ)) :
    (computeUseBackpack b cs = true ↔
      (b = true ∧ ∀ c ∈ cs, c.numelTotal ≠ 0 → c.isLinearOrConv2d = true))
    ∧ (m._use_backpack = true → m.der_log x = m.der_log_backpack x)
    ∧ (m._use_backpack = false → m.der_log x = m.der_log_persample x) := by
  refine ⟨?_, ?_, ?_⟩
  · simp only [computeUseBackpack, Bool.and_eq_true, List.all_eq_true,
      Bool.or_eq_true, beq_iff_eq]
    constructor
    · rintro ⟨hb, hall⟩
      exact ⟨hb, fun c hc hne => ((hall c hc).resolve_right hne)⟩
    · rintro ⟨hb, hall⟩
      refine ⟨hb, fun c hc => ?_⟩
      by_cases hz : c.numelTotal = 0
      · exact Or.inr hz
      · exact Or.inl (hall c hc hz)
  · intro h
    simp [Torch.der_log, Torch.der_logS, h]
  · intro h
    simp [Torch.der_log, Torch.der_logS, h]

/-- Witness for C4: the concrete machine `cexM` has the flag off, so its
`der_log` is the per-sample backend. -/
theorem claim_C4_witness :
    cexM.der_log [[0]] = cexM.der_log_persample [[0]] :=
  (claim_C4_backend_selection true [] cexM [[0]]).2.2 rfl

/-- Claim C5: the update direction returned by `_forward_and_backward` is
the leafwise projection of the pre-projection direction; a leaf with a real
parameter counterpart becomes the real parts (imaginary parts exactly
zero), a leaf with a complex counterpart passes through unchanged. -/
theorem claim_C5_projection (d : SteadyState) (e : StepEnv) :
    (d._forward_and_backward e).2 = projectTree (d.preProject e) e.targetsComplex
    ∧ (∀ v : List CQ, projectLeaf v false = v.map (fun z => CQ.ofRe z.re))
    ∧ (∀ v : List CQ, ∀ z ∈ projectLeaf v false, z.im = 0)
    ∧ (∀ v : List CQ, projectLeaf v true = v) := by
  refine ⟨rfl, fun v => rfl, fun v z hz => ?_, fun v => rfl⟩
  simp only [projectLeaf, if_neg (by simp : ¬ false = true), List.mem_map] at hz
  obtain ⟨w, _, rfl⟩ := hz
  rfl

/-- Witness for C5: a concrete real-parameter leaf fed a direction with a
nonzero imaginary part comes back with the imaginary part exactly zero. -/
theorem claim_C5_witness :
    projectLeaf [CQ.mk 1 2] false = [CQ.mk 1 2].map (fun z => CQ.ofRe z.re) :=
  (claim_C5_projection (SteadyState.mk0 true false) (witEnvs 0)).2.1 [CQ.mk 1 2]

/-- Claim C6: writing the getter's vector back through the setter restores
every parameter tensor exactly and emits no precision-loss warning,
because the getter's imaginary parts are all zero. -/
theorem claim_C6_roundtrip (m : Torch) :
    m.parameters_set m.parameters = (false, some m.params) := by
  have hwarn : m.parameters.all (fun z => decide (z.im = 0)) = true := by
    rw [List.all_eq_true]
    intro z hz
    simp only [Torch.parameters, List.mem_map] at hz
    obtain ⟨r, _, rfl⟩ := hz
    simp [CQ.ofRe]
  have hlen : (m.parameters.map CQ.re).length = m.n_par := by
    rw [List.length_map]; exact m.parameters_length
  unfold Torch.parameters_set
  rw [if_neg (by rw [hlen]; exact fun h => h rfl)]
  rw [hwarn]
  rw [Torch.parameters_re]
  unfold Torch.dparams
  rw [Torch.assignReals_self]
  rfl

/-- Claim C7: the setter raises its `ValueError` exactly when the supplied
vector's length differs from `n_par`, and on that error the machine is left
unmodified, the length check preceding every copy. -/
theorem claim_C7_shape_error (m : Torch) (p : List CQ) :
    ((m.parameters_set p).2 = none ↔ p.length ≠ m.n_par)
    ∧ (p.length ≠ m.n_par → (m.parameters_setM p).2 = m) := by
  have hkey : (m.parameters_set p).2 = none ↔ p.length ≠ m.n_par := by
    unfold Torch.parameters_set
    by_cases h : (p.map CQ.re).length ≠ m.n_par
    · rw [if_pos h]
      simpa using h
    · rw [if_neg h]
      simp only [List.length_map] at h
      simpa using h
  refine ⟨hkey, fun h => ?_⟩
  have hnone := hkey.mpr h
  rcases hps : m.parameters_set p with ⟨w, o⟩
  rw [hps] at hnone
  obtain rfl : o = none := hnone
  simp [Torch.parameters_setM, hps]

/-- Witness for C7: a too-short vector leaves the concrete machine `witM`
untouched. -/
theorem claim_C7_witness :
    (witM.parameters_setM [CQ.mk 1 1]).2 = witM :=
  (claim_C7_shape_error witM [CQ.mk 1 1]).2 (by decide)

/-- Claim C8: on a vector of the right length, the setter warns exactly
when some entry has a nonzero imaginary part, assigns exactly the real
parts of the vector to the differentiable (real-valued) parameters, and
leaves frozen tensors untouched. -/
theorem claim_C8_precision_warning (m : Torch) (p : List CQ)
    (h : p.length = m.n_par) :
    ((m.parameters_set p).1 = true ↔ ¬ ∀ z ∈ p, z.im = 0)
    ∧ (m.parameters_set p).2 = some (Torch.assignReals m.params (p.map CQ.re))
    ∧ (Torch.dparamsL (Torch.assignReals m.params (p.map CQ.re))).flatten = p.map CQ.re
    ∧ (Torch.assignReals m.params (p.map CQ.re)).filter (fun q => !q.2) =
        m.params.filter (fun q => !q.2) := by
  have hok : ¬ (p.map CQ.re).length ≠ m.n_par := by
    rw [List.length_map]; exact fun hc => hc h
  refine ⟨?_, ?_, ?_, Torch.assignReals_nondiff m.params (p.map CQ.re)⟩
  · unfold Torch.parameters_set
    rw [if_neg hok]
    simp [List.all_eq_true]
  · unfold Torch.parameters_set
    rw [if_neg hok]
  · apply Torch.flatten_assignReals
    rw [List.length_map, h]
    rfl

/-- Witness for C8: on `witM` and a full-length vector with one nonzero
imaginary part, the setter warns and assigns the real parts. -/
theorem claim_C8_witness :
    (witM.parameters_set witP).2 = some (Torch.assignReals witM.params (witP.map CQ.re))
    ∧ (witM.parameters_set witP).1 = true :=
  ⟨(claim_C8_precision_warning witM witP (by decide)).2.1,
    ((claim_C8_precision_warning witM witP (by decide)).1).mpr (by decide)⟩

theorem vadd_zeros (l : List ℚ) : vadd (zeros l.length) l = l := by
  induction l with
  | nil => rfl
  | cons q rest ih =>
    show (0 + q) :: vadd (zeros rest.length) rest = q :: rest
    rw [zero_add, ih]

theorem length_vscale (c : ℚ) (v : List ℚ) : (vscale c v).length = v.length := by
  simp [vscale]

theorem length_vadd (a b : List ℚ) : (vadd a b).length = min a.length b.length := by
  simp [vadd]

/-- A `zero_grad` followed by an accumulating backward pass of matching
shapes yields exactly the fresh contributions, whatever the buffers held
before. -/
theorem accumulate_zeroGrads (g : List (Option (List ℚ))) (cs : List (List ℚ))
    (h : g.length = cs.length)
    (hwf : ∀ pr ∈ g.zip (cs.map List.length), Torch.bufOK pr.1 pr.2) :
    Torch.accumulate (Torch.zeroGrads g) cs = cs.map some := by
  induction g generalizing cs with
  | nil =>
    cases cs with
    | nil => rfl
    | cons c cs => simp at h
  | cons o g ih =>
    cases cs with
    | nil => simp at h
    | cons c cs =>
      have hhead : Torch.bufOK o c.length := hwf (o, c.length) (by simp)
      have hrec := ih cs (by simpa using h)
        (fun pr hpr => hwf pr (by simp [hpr]))
      show some (vadd ((Option.map (fun v => zeros v.length) o).getD (zeros c.length)) c) ::
          Torch.accumulate (Torch.zeroGrads g) cs = some c :: cs.map some
      rw [hrec]
      cases o with
      | none =>
        show some (vadd (zeros c.length) c) :: _ = _
        rw [vadd_zeros c]
      | some w =>
        have hw : w.length = c.length := hhead
        show some (vadd (zeros w.length) c) :: _ = _
        rw [hw, vadd_zeros c]

/-- Shapes of the per-sample gradient contribution. -/
theorem zip_vadd_shape (x y : ℚ) (F : List (List ℚ)) :
    ∀ (T : List (List ℚ)) (ds : List ℕ),
      F.map List.length = ds → T.map List.length = ds →
      (List.zipWith (fun a b => vadd (vscale x a) (vscale y b)) F T).map List.length = ds := by
  induction F with
  | nil =>
    intro T ds hF hT
    subst hF
    rw [List.map_eq_nil_iff.mp hT]
    rfl
  | cons a F ih =>
    intro T ds hF hT
    cases ds with
    | nil => simp at hF
    | cons d ds =>
      cases T with
      | nil => simp at hT
      | cons b T =>
        simp only [List.map_cons, List.cons.injEq] at hF hT
        rw [List.zipWith_cons_cons, List.map_cons]
        rw [ih T ds hF.2 hT.2]
        rw [length_vadd, length_vscale, length_vscale, hF.1, hT.1, min_self]

/-- Shapes of a rowwise sum of two gradient tables. -/
theorem zipWith_vadd_shape (F : List (List ℚ)) :
    ∀ (T : List (List ℚ)) (ds : List ℕ),
      F.map List.length = ds → T.map List.length = ds →
      (List.zipWith vadd F T).map List.length = ds := by
  induction F with
  | nil =>
    intro T ds hF hT
    subst hF
    rw [List.map_eq_nil_iff.mp hT]
    rfl
  | cons a F ih =>
    intro T ds hF hT
    cases ds with
    | nil => simp at hF
    | cons d ds =>
      cases T with
      | nil => simp at hT
      | cons b T =>
        simp only [List.map_cons, List.cons.injEq] at hF hT
        rw [List.zipWith_cons_cons, List.map_cons]
        rw [ih T ds hF.2 hT.2]
        rw [length_vadd, hF.1, hT.1, min_self]

theorem sampleGrad_shape (m : Torch) (r : List ℚ) (w : ℚ × ℚ)
    (hF : (m.dlog r false).map List.length = m.dshape)
    (hT : (m.dlog r true).map List.length = m.dshape) :
    (m.sampleGrad r w).map List.length = m.dshape :=
  zip_vadd_shape w.1 w.2 (m.dlog r false) (m.dlog r true) m.dshape hF hT

theorem map_zeros_shape (ds : List ℕ) : (ds.map zeros).map List.length = ds := by
  induction ds with
  | nil => rfl
  | cons d ds ih =>
    show (zeros d).length :: (ds.map zeros).map List.length = d :: ds
    rw [ih]
    simp [zeros]

/-- The total gradient of a backward pass has one block per differentiable
parameter, of that parameter's size. -/
theorem batchGrad_shape (m : Torch) :
    ∀ (x : List (List ℚ)) (ws : List (ℚ × ℚ)), m.WFon x →
      (Torch.batchGrad m m.dshape x ws).map List.length = m.dshape := by
  intro x
  induction x with
  | nil =>
    intro ws _
    exact map_zeros_shape m.dshape
  | cons r rs ih =>
    intro ws hwf
    cases ws with
    | nil => exact map_zeros_shape m.dshape
    | cons w ws =>
      obtain ⟨hF, hT⟩ := hwf r (by simp)
      have hrs : m.WFon rs := fun r' h' => hwf r' (by simp [h'])
      show (List.zipWith vadd (m.sampleGrad r w) (Torch.batchGrad m m.dshape rs ws)).map
          List.length = m.dshape
      exact zipWith_vadd_shape _ _ _ (sampleGrad_shape m r w hF hT) (ih ws hrs)

theorem readGrads_map_some (cs : List (List ℚ)) :
    Torch.readGrads (cs.map some) = cs.flatten := by
  unfold Torch.readGrads
  rw [List.map_map]
  have h : ((fun o : Option (List ℚ) => o.getD []) ∘ some) = id := rfl
  rw [h, List.map_id]

theorem bufOK_of_shapes (A : List (List ℚ)) :
    ∀ B : List (List ℚ), A.map List.length = B.map List.length →
      ∀ pr ∈ (A.map some).zip (B.map List.length), Torch.bufOK pr.1 pr.2 := by
  induction A with
  | nil => intro B _ pr hpr; simp at hpr
  | cons a A ih =>
    intro B h pr hpr
    cases B with
    | nil => simp at h
    | cons b B =>
      simp only [List.map_cons, List.cons.injEq] at h
      simp only [List.map_cons, List.zip_cons_cons, List.mem_cons] at hpr
      rcases hpr with hpr | hpr
      · subst hpr
        show ((some a).getD (zeros b.length)).length = b.length
        simpa using h.1
      · exact ih B h.2 pr hpr

/-- Closed form of `vector_jacobian_prod` under the shape discipline: the
result is assembled from the two backward passes' total gradients, the
entry state of the buffers washing out because each pass is preceded by a
`zero_grad`. -/
theorem vjp_closed_form (m : Torch) (x : List (List ℚ)) (vec : List CQ)
    (h1 : m.GradWF) (h2 : m.WFon x) :
    m.vector_jacobian_prod x vec =
      mkC (Torch.batchGrad m m.dshape x (vec.map (fun z => (z.re, z.im)))).flatten
          (Torch.batchGrad m m.dshape x (vec.map (fun z => (z.im, -z.re)))).flatten := by
  have hds : m.dshape.length = m.dparams.length := by
    simp [Torch.dshape]
  have hshape1 := batchGrad_shape m x (vec.map (fun z => (z.re, z.im))) h2
  have hshape2 := batchGrad_shape m x (vec.map (fun z => (z.im, -z.re))) h2
  set cs1 := Torch.batchGrad m m.dshape x (vec.map (fun z => (z.re, z.im))) with hc1
  set cs2 := Torch.batchGrad m m.dshape x (vec.map (fun z => (z.im, -z.re))) with hc2
  have hlen1 : cs1.length = m.dshape.length := by
    rw [← hshape1, List.length_map]
  have hlen2 : cs2.length = m.dshape.length := by
    rw [← hshape2, List.length_map]
  have hstep1 : Torch.accumulate (Torch.zeroGrads m.grads) cs1 = cs1.map some := by
    apply accumulate_zeroGrads
    · rw [h1.1, ← hds, hlen1]
    · intro pr hpr
      apply h1.2
      rwa [hshape1] at hpr
  have hstep2 : Torch.accumulate (Torch.zeroGrads (cs1.map some)) cs2 = cs2.map some := by
    apply accumulate_zeroGrads
    · rw [List.length_map, hlen1, hlen2]
    · exact bufOK_of_shapes cs1 cs2 (by rw [hshape1, hshape2])
  show mkC
      (Torch.readGrads (Torch.accumulate (Torch.zeroGrads m.grads) cs1))
      (Torch.readGrads (Torch.accumulate
        (Torch.zeroGrads (Torch.accumulate (Torch.zeroGrads m.grads) cs1)) cs2)) =
    mkC cs1.flatten cs2.flatten
  rw [hstep1, hstep2, readGrads_map_some, readGrads_map_some]

/-- All buffers produced by `zero_grad` hold only zeroes. -/
theorem zeroGrads_zeroed (g : List (Option (List ℚ))) :
    Torch.Zeroed (Torch.zeroGrads g) := by
  intro o ho v hv q hq
  simp only [Torch.zeroGrads, List.mem_map] at ho
  obtain ⟨o', _, rfl⟩ := ho
  cases o' with
  | none => cases hv
  | some w =>
    have hvw : zeros w.length = v := by simpa using hv
    subst hvw
    exact List.eq_of_mem_replicate hq

/-- Claim C9: `der_log` returns with the gradient-accumulation buffers
zeroed in both the backpack branch and the per-sample branch, and with the
parameter tensors untouched. -/
theorem claim_C9_grads_zeroed (m : Torch) (x : List (List ℚ)) :
    Torch.Zeroed ((m.der_logS x).2).grads ∧ ((m.der_logS x).2).params = m.params := by
  constructor
  · by_cases hb : m._use_backpack <;>
      simp only [Torch.der_logS, hb, if_true, if_false, Bool.false_eq_true] <;>
      exact zeroGrads_zeroed _
  · by_cases hb : m._use_backpack <;>
      simp only [Torch.der_logS, hb, if_true, if_false, Bool.false_eq_true]

/-- Witness for C9 on a concrete machine and batch, entering with a dirty
gradient buffer. -/
theorem claim_C9_witness :
    Torch.Zeroed ((witM.der_logS [[1], [0]]).2).grads
    ∧ ((witM.der_logS [[1], [0]]).2).params = witM.params :=
  claim_C9_grads_zeroed witM [[1], [0]]

/-- The total backward-pass gradient reads only the gradient oracle, never
the accumulation buffers. -/
theorem batchGrad_grads_irrel (m : Torch) (g : List (Option (List ℚ))) (s : List ℕ) :
    ∀ (x : List (List ℚ)) (ws : List (ℚ × ℚ)),
      Torch.batchGrad { m with grads := g } s x ws = Torch.batchGrad m s x ws := by
  intro x
  induction x with
  | nil => intro ws; rfl
  | cons r rs ih =>
    intro ws
    cases ws with
    | nil => rfl
    | cons w ws =>
      show List.zipWith vadd (Torch.sampleGrad { m with grads := g } r w)
          (Torch.batchGrad { m with grads := g } s rs ws) = _
      rw [ih ws]
      rfl

/-- Claim C10: the value returned by `vector_jacobian_prod` does not depend
on the contents of the gradient-accumulation buffers at call time, because
each of its two backward passes is preceded by a `zero_grad`; in
particular a preceding call, which returns with the second pass's nonzero
buffers, cannot contaminate a following call. -/
theorem claim_C10_no_contamination (m : Torch) (g₁ g₂ : List (Option (List ℚ)))
    (x : List (List ℚ)) (vec : List CQ)
    (h1 : Torch.GradWF { m with grads := g₁ })
    (h2 : Torch.GradWF { m with grads := g₂ })
    (hx : m.WFon x) :
    Torch.vector_jacobian_prod { m with grads := g₁ } x vec =
      Torch.vector_jacobian_prod { m with grads := g₂ } x vec := by
  rw [vjp_closed_form { m with grads := g₁ } x vec h1 hx,
    vjp_closed_form { m with grads := g₂ } x vec h2 hx]
  simp only [batchGrad_grads_irrel]
  rfl

theorem vadd_append (a b c d : List ℚ) (h : a.length = b.length) :
    vadd (a ++ c) (b ++ d) = vadd a b ++ vadd c d :=
  List.zipWith_append _ a c b d h

/-- Flattening distributes over a rowwise sum of tables of equal row
shapes. -/
theorem flatten_zipWith_vadd (A : List (List ℚ)) :
    ∀ B : List (List ℚ), A.map List.length = B.map List.length →
      (List.zipWith vadd A B).flatten = vadd A.flatten B.flatten := by
  induction A with
  | nil =>
    intro B h
    rw [List.map_eq_nil_iff.mp h.symm]
    rfl
  | cons a A ih =>
    intro B h
    cases B with
    | nil => simp at h
    | cons b B =>
      simp only [List.map_cons, List.cons.injEq] at h
      rw [List.zipWith_cons_cons, List.flatten_cons, List.flatten_cons,
        List.flatten_cons, vadd_append a b A.flatten B.flatten h.1, ih B h.2]

theorem flatten_map_zeros (ds : List ℕ) : (ds.map zeros).flatten = zeros ds.sum := by
  induction ds with
  | nil => rfl
  | cons d ds ih =>
    show zeros d ++ (ds.map zeros).flatten = zeros (d + ds.sum)
    rw [ih, zeros, zeros, zeros, List.replicate_add]

theorem flatten_map_vscale (c : ℚ) (L : List (List ℚ)) :
    (L.map (vscale c)).flatten = vscale c L.flatten := by
  unfold vscale
  rw [List.map_flatten]

/-- The flattened per-sample contribution is the weighted sum of the two
flattened channel gradients. -/
theorem flatten_sampleGrad (m : Torch) (r : List ℚ) (w : ℚ × ℚ)
    (hF : (m.dlog r false).map List.length = m.dshape)
    (hT : (m.dlog r true).map List.length = m.dshape) :
    (m.sampleGrad r w).flatten =
      vadd (vscale w.1 (m.jrow r false)) (vscale w.2 (m.jrow r true)) := by
  unfold Torch.sampleGrad
  have hrw : List.zipWith (fun gF gT => vadd (vscale w.1 gF) (vscale w.2 gT))
      (m.dlog r false) (m.dlog r true) =
      List.zipWith vadd ((m.dlog r false).map (vscale w.1))
        ((m.dlog r true).map (vscale w.2)) := by
    rw [List.zipWith_map vadd (vscale w.1) (vscale w.2)]
  rw [hrw, flatten_zipWith_vadd _ _ ?hsh, flatten_map_vscale, flatten_map_vscale]
  · rfl
  case hsh =>
    rw [List.map_map, List.map_map]
    have e1 : (List.length ∘ vscale w.1) = List.length := by
      funext v; exact length_vscale w.1 v
    have e2 : (List.length ∘ vscale w.2) = List.length := by
      funext v; exact length_vscale w.2 v
    rw [e1, e2, hF, hT]

theorem flatten_length_of_shape (A : List (List ℚ)) (ds : List ℕ)
    (h : A.map List.length = ds) : A.flatten.length = ds.sum := by
  rw [List.length_flatten, h]

theorem mkC_vadd (a : List ℚ) :
    ∀ (b c d : List ℚ), a.length = b.length → a.length = c.length →
      a.length = d.length →
      mkC (vadd a b) (vadd c d) = caddV (mkC a c) (mkC b d) := by
  induction a with
  | nil =>
    intro b c d hb hc hd
    rw [(List.length_eq_zero.mp hb.symm), (List.length_eq_zero.mp hc.symm),
      (List.length_eq_zero.mp hd.symm)]
    rfl
  | cons q a ih =>
    intro b c d hb hc hd
    cases b with
    | nil => simp at hb
    | cons qb b =>
      cases c with
      | nil => simp at hc
      | cons qc c =>
        cases d with
        | nil => simp at hd
        | cons qd d =>
          simp only [List.length_cons, Nat.succ.injEq] at hb hc hd
          show CQ.mk (q + qb) (qc + qd) :: mkC (vadd a b) (vadd c d) =
            CQ.add (CQ.mk q qc) (CQ.mk qb qd) :: caddV (mkC a c) (mkC b d)
          rw [ih b c d hb hc hd]
          rfl

/-- Entrywise: multiplying the conjugated complex gradient by `w` is the
same as assembling the two weighted backward passes with channel weights
`(re w, im w)` and `(im w, -re w)`. -/
theorem csmul_conj_mkC (w : CQ) (f : List ℚ) :
    ∀ t : List ℚ, f.length = t.length →
      csmulV w (conjV (mkC f t)) =
        mkC (vadd (vscale w.re f) (vscale w.im t))
            (vadd (vscale w.im f) (vscale (-w.re) t)) := by
  induction f with
  | nil =>
    intro t ht
    rw [(List.length_eq_zero.mp ht.symm)]
    rfl
  | cons q f ih =>
    intro t ht
    cases t with
    | nil => simp at ht
    | cons qt t =>
      simp only [List.length_cons, Nat.succ.injEq] at ht
      show CQ.mul w (CQ.conj (CQ.mk q qt)) :: csmulV w (conjV (mkC f t)) = _
      rw [ih t ht]
      show _ = CQ.mk (w.re * q + w.im * qt) (w.im * q + -w.re * qt) :: _
      have hentry : CQ.mul w (CQ.conj (CQ.mk q qt)) =
          CQ.mk (w.re * q + w.im * qt) (w.im * q + -w.re * qt) := by
        unfold CQ.mul CQ.conj
        have h1 : w.re * q - w.im * -qt = w.re * q + w.im * qt := by ring
        have h2 : w.re * -qt + w.im * q = w.im * q + -w.re * qt := by ring
        rw [CQ.mk.injEq]
        exact ⟨h1, h2⟩
      rw [hentry]
      rfl

theorem mkC_zeros (n : ℕ) : mkC (zeros n) (zeros n) = czeros n := by
  unfold mkC zeros czeros
  rw [List.zipWith_replicate, min_self]
  rfl

/-- The assembled two-pass backward results equal the adjoint product of
the weight vector with the per-sample Jacobian rows. -/
theorem flatten_batchGrads_eq (m : Torch) :
    ∀ (x : List (List ℚ)) (vec : List CQ), m.WFon x → vec.length = x.length →
      mkC (Torch.batchGrad m m.dshape x (vec.map (fun z => (z.re, z.im)))).flatten
          (Torch.batchGrad m m.dshape x (vec.map (fun z => (z.im, -z.re)))).flatten
        = wConjJ m.n_par vec (m.der_log_persample x) := by
  intro x
  induction x with
  | nil =>
    intro vec _ hv
    have hnil : vec = [] := List.length_eq_zero.mp (by simpa using hv)
    subst hnil
    show mkC (m.dshape.map zeros).flatten (m.dshape.map zeros).flatten = _
    rw [flatten_map_zeros]
    exact mkC_zeros m.dshape.sum
  | cons r rs ih =>
    intro vec hwf hv
    cases vec with
    | nil => simp at hv
    | cons w ws =>
      obtain ⟨hF, hT⟩ := hwf r (by simp)
      have hwfs : m.WFon rs := fun r' h' => hwf r' (by simp [h'])
      have hv' : ws.length = rs.length := by simpa using hv
      have hsh1 := sampleGrad_shape m r (w.re, w.im) hF hT
      have hsh2 := sampleGrad_shape m r (w.im, -w.re) hF hT
      have hbg1 := batchGrad_shape m rs (ws.map (fun z => (z.re, z.im))) hwfs
      have hbg2 := batchGrad_shape m rs (ws.map (fun z => (z.im, -z.re))) hwfs
      show mkC
          (List.zipWith vadd (m.sampleGrad r (w.re, w.im))
            (Torch.batchGrad m m.dshape rs (ws.map (fun z => (z.re, z.im))))).flatten
          (List.zipWith vadd (m.sampleGrad r (w.im, -w.re))
            (Torch.batchGrad m m.dshape rs (ws.map (fun z => (z.im, -z.re))))).flatten
        = _
      rw [flatten_zipWith_vadd _ _ (by rw [hsh1, hbg1]),
        flatten_zipWith_vadd _ _ (by rw [hsh2, hbg2])]
      rw [mkC_vadd _ _ _ _
        (by rw [flatten_length_of_shape _ _ hsh1, flatten_length_of_shape _ _ hbg1])
        (by rw [flatten_length_of_shape _ _ hsh1, flatten_length_of_shape _ _ hsh2])
        (by rw [flatten_length_of_shape _ _ hsh1, flatten_length_of_shape _ _ hbg2])]
      rw [ih ws hwfs hv']
      rw [flatten_sampleGrad m r (w.re, w.im) hF hT,
        flatten_sampleGrad m r (w.im, -w.re) hF hT]
      rw [← csmul_conj_mkC w (m.jrow r false) (m.jrow r true)
        (by rw [Torch.jrow, Torch.jrow, flatten_length_of_shape _ _ hF,
          flatten_length_of_shape _ _ hT])]
      rfl

/-- Under the shape discipline the backpack branch agrees with the
per-sample branch (proved in full as the C3 equivalence); stated here for
reuse. -/
theorem hcat_transposeRect (n : ℕ) :
    ∀ tbl : List (List (List ℚ)), (∀ r ∈ tbl, r.length = n) →
      Torch.hcatAll tbl.length (Torch.transposeRect n tbl) = tbl.map List.flatten := by
  induction n with
  | zero =>
    intro tbl h
    show List.replicate tbl.length [] = tbl.map List.flatten
    have he : tbl.map List.flatten = tbl.map (fun _ => []) :=
      List.map_congr_left (fun r hr => by
        rw [List.length_eq_zero.mp (h r hr)]; rfl)
    rw [he, List.map_const']
  | succ k ih =>
    intro tbl h
    show List.zipWith (fun a b => a ++ b) (tbl.map (fun r => r.headD []))
      (Torch.hcatAll tbl.length (Torch.transposeRect k (tbl.map List.tail)))
      = tbl.map List.flatten
    have hlen : tbl.length = (tbl.map List.tail).length := by
      rw [List.length_map]
    rw [hlen, ih (tbl.map List.tail) ?htail]
    case htail =>
      intro r' hr'
      obtain ⟨r, hr, rfl⟩ := List.mem_map.mp hr'
      rw [List.length_tail, h r hr]
      rfl
    rw [List.map_map,
      List.zipWith_map (fun a b => a ++ b) (fun r : List (List ℚ) => r.headD [])
        (List.flatten ∘ List.tail) tbl tbl,
      List.zipWith_same]
    apply List.map_congr_left
    intro r hr
    have hrlen := h r hr
    cases r with
    | nil => simp at hrlen
    | cons a t => rfl

/-- Backend equivalence under the shape discipline: the column-blockwise
assembly of the backpack `grad_batch` tensors equals the rowwise
concatenation of the per-sample gradients. -/
theorem backpack_eq_persample (m : Torch) (x : List (List ℚ)) (h : m.WFon x) :
    m.der_log_backpack x = m.der_log_persample x := by
  have hchan : ∀ c : Bool, m.der_log_backpack_chan x c =
      x.map (fun r => (m.dlog r c).flatten) := by
    intro c
    unfold Torch.der_log_backpack_chan Torch.grad_batch
    have hrows : ∀ r' ∈ x.map (fun r => m.dlog r c), r'.length = m.dparams.length := by
      intro r' hr'
      obtain ⟨r, hr, rfl⟩ := List.mem_map.mp hr'
      obtain ⟨hF, hT⟩ := h r hr
      cases c
      · have := congrArg List.length hF
        simpa [Torch.dshape] using this
      · have := congrArg List.length hT
        simpa [Torch.dshape] using this
    have := hcat_transposeRect m.dparams.length (x.map (fun r => m.dlog r c)) hrows
    rw [List.length_map] at this
    rw [this, List.map_map]
    rfl
  unfold Torch.der_log_backpack Torch.der_log_persample
  rw [hchan false, hchan true,
    List.zipWith_map mkC (fun r => (m.dlog r false).flatten)
      (fun r => (m.dlog r true).flatten) x x,
    List.zipWith_same]
  rfl

/-- `der_log` returns the per-sample Jacobian rows whichever backend is
active, given the shape discipline. -/
theorem der_log_eq_persample (m : Torch) (x : List (List ℚ)) (h : m.WFon x) :
    m.der_log x = m.der_log_persample x := by
  by_cases hb : m._use_backpack
  · have e : m.der_log x = m.der_log_backpack x := by
      simp [Torch.der_log, Torch.der_logS, hb]
    rw [e, backpack_eq_persample m x h]
  · simp [Torch.der_log, Torch.der_logS, hb]

/-- Witness for C10: two concrete entry states of the buffers (one fresh,
one dirty) give the same `vector_jacobian_prod` value on `witM`. -/
theorem claim_C10_witness :
    Torch.vector_jacobian_prod { witM with grads := [some [0, 0], none] } [[1]] [CQ.mk 2 3] =
      Torch.vector_jacobian_prod { witM with grads := [some [5, 7], some [9]] } [[1]] [CQ.mk 2 3] :=
  claim_C10_no_contamination witM [some [0, 0], none] [some [5, 7], some [9]] [[1]] [CQ.mk 2 3]
    (by decide) (by decide) (by decide)

/-- Counterexample to C1 as stated: on the one-parameter machine `cexM`
(model `r ↦ (0, θ)`) with batch `[[0]]` and weight `w = 1`, the code's
`vector_jacobian_prod` returns `[-i]` while `w^T · J` with
`J = der_log([[0]]) = [[i]]` is `[i]`. -/
theorem claim_C1_counterexample :
    cexM.vector_jacobian_prod [[0]] [CQ.mk 1 0] ≠
      wTJ cexM.n_par [CQ.mk 1 0] (cexM.der_log [[0]]) := by
  have h1 : cexM.vector_jacobian_prod [[0]] [CQ.mk 1 0] = [CQ.mk 0 (-1)] := by
    norm_num [Torch.vector_jacobian_prod, Torch.vector_jacobian_prodS, Torch.zeroGrads,
      Torch.accumulate, Torch.batchGrad, Torch.sampleGrad, Torch.readGrads, Torch.dshape,
      Torch.dparams, Torch.dparamsL, cexM, vadd, vscale, zeros, mkC, CQ.mk.injEq]
  have h2 : wTJ cexM.n_par [CQ.mk 1 0] (cexM.der_log [[0]]) = [CQ.mk 0 1] := by
    norm_num [wTJ, Torch.der_log, Torch.der_logS, Torch.der_log_persample, Torch.jrow,
      Torch.n_par, Torch.dshape, Torch.dparams, Torch.dparamsL, cexM, mkC, csmulV, caddV,
      conjV, czeros, CQ.mul, CQ.add, CQ.zero, CQ.mk.injEq]
  rw [h1, h2]
  intro h
  have him := congrArg (fun l => (l.headD CQ.zero).im) h
  norm_num at him

/-- Claim C1 amended: `vector_jacobian_prod(x, w)` equals `w^T · conj(J)`
(equivalently the adjoint product `J^† w`), where `J` is the complex
Jacobian returned by `der_log(x)`: the second backward pass weights channel
1 by `-vec.real`, which conjugates each Jacobian row. -/
theorem claim_C1_vjp_adjoint (m : Torch) (x : List (List ℚ)) (vec : List CQ)
    (h1 : m.GradWF) (h2 : m.WFon x) (h3 : vec.length = x.length) :
    m.vector_jacobian_prod x vec = wConjJ m.n_par vec (m.der_log x) := by
  rw [vjp_closed_form m x vec h1 h2, der_log_eq_persample m x h2]
  exact flatten_batchGrads_eq m x vec h2 h3

/-- Witness for the amended C1 on the concrete machine `cexM`. -/
theorem claim_C1_witness :
    cexM.vector_jacobian_prod [[0]] [CQ.mk 1 0] =
      wConjJ cexM.n_par [CQ.mk 1 0] (cexM.der_log [[0]]) :=
  claim_C1_vjp_adjoint cexM [[0]] [CQ.mk 1 0] (by decide) (by decide) (by decide)

/-- Claim C3: for any machine whose gradient oracle satisfies the shape
discipline on the batch (the embedding of Backend A's architectural
restriction: a per-sample-independent model for which backpack's
`BatchGrad` delivers exactly the per-sample gradients), the fused backpack
assembly and the per-sample loop produce equal Jacobian matrices - exactly
equal here, since the embedding computes in exact arithmetic. -/
theorem claim_C3_backend_equivalence (m : Torch) (x : List (List ℚ))
    (h : m.WFon x) :
    m.der_log_backpack x = m.der_log_persample x :=
  backpack_eq_persample m x h

/-- Witness for C3 on the concrete two-tensor machine `witM` and a
two-sample batch. -/
theorem claim_C3_witness :
    witM.der_log_backpack [[1], [0]] = witM.der_log_persample [[1], [0]] :=
  claim_C3_backend_equivalence witM [[1], [0]] (by decide)

end Netket
